import Mathlib

/-!
Shallow embedding of the Mod Application Engine of the Wartypes HoN Mod
Manager (src/source/ModManager19.py and src/source/ModManager26.py; the
`ModApplicator` class is identical in both files).

Buffers of decoded text are embedded as `List Char` (one element per
Python-string code point), raw file content as `List Nat` (one element
per byte).  Python's `-1` sentinels (`str.find`, `match_start`) are
embedded as `Option`.
-/

namespace ModApplicator

/-- One Python-string occurrence test: `occursAt s sub i` holds when
`sub` occurs in `s` at index `i` (and lies entirely inside `s`; for the
empty `sub` this is exactly `i ≤ s.length`, matching CPython). -/
def occursAt (s sub : List Char) (i : Nat) : Bool :=
  decide (i + sub.length ≤ s.length) && ((s.drop i).take sub.length == sub)

/-- Scan forward from index `i`, trying at most `fuel` indices. -/
def findFrom (s sub : List Char) : Nat → Nat → Option Nat
  | _, 0 => none
  | i, fuel + 1 => if occursAt s sub i then some i else findFrom s sub (i + 1) fuel

/-- Python `s.find(sub, start)`: the least `i ≥ start` at which `sub`
occurs in `s`, `none` when there is none (CPython returns `-1`). -/
def strFind (s sub : List Char) (start : Nat) : Option Nat :=
  findFrom s sub start (s.length + 1 - start)

/-- Scan downward from index `k` towards `0`. -/
def rfindDown (s sub : List Char) : Nat → Option Nat
  | 0 => if occursAt s sub 0 then some 0 else none
  | k + 1 => if occursAt s sub (k + 1) then some (k + 1) else rfindDown s sub k

/-- Python `s.rfind(sub, 0, stop)`: the greatest `i` at which `sub`
occurs within `s[0:stop]` (so `i + sub.length ≤ min stop s.length`),
`none` when there is none. -/
def strRfind (s sub : List Char) (stop : Nat) : Option Nat :=
  let bound := min stop s.length
  if sub.length ≤ bound then rfindDown s sub (bound - sub.length) else none

/-- Left-to-right, non-overlapping replacement of a non-empty pattern
`old` by `new`, fuel-bounded for structural recursion: every step
consumes at least one character, so `s.length + 1` fuel never runs
out. -/
def replaceAllAux (old new : List Char) : Nat → List Char → List Char
  | 0, s => s
  | fuel + 1, s =>
    if s.take old.length = old then
      new ++ replaceAllAux old new fuel (s.drop old.length)
    else
      match s with
      | [] => []
      | c :: rest => c :: replaceAllAux old new fuel rest

/-- Python `s.replace(old, new)`: left-to-right, non-overlapping
replacement of every occurrence of `old` by `new` (with CPython's
behaviour for the empty pattern). -/
def replaceAll (old new : List Char) (s : List Char) : List Char :=
  if old = [] then new ++ s.flatMap (fun c => c :: new)
  else replaceAllAux old new (s.length + 1) s

/-- Python substring membership test `sub in s`. -/
def containsSub (s sub : List Char) : Bool :=
  (strFind s sub 0).isSome

def crlf : List Char := ['\r', '\n']

def lf : List Char := ['\n']

/-- Line-ending detection at block entry (ModManager19.py lines
797-801): CRLF when the decoded buffer contains any CRLF, else LF. -/
def detectNewline (text : List Char) : List Char :=
  if containsSub text crlf then crlf else lf

/-- Per-directive literal normalization (ModManager19.py line 814):
`raw_text.replace("\r\n", "\n").replace("\n", newline_mode)`. -/
def normalizeText (newlineMode raw : List Char) : List Char :=
  replaceAll lf newlineMode (replaceAll crlf lf raw)

/-- Python `str.lower()` (character-wise; the names compared in the
source are ASCII, where CPython's `lower` and `Char.toLower` agree). -/
def lowerString (s : String) : String :=
  ⟨s.data.map Char.toLower⟩

/-- One child node of an `editfile` element: its tag, its text content
(`child.text or ""`) and its optional `position` attribute. -/
structure XmlChild where
  tag : String
  text : List Char
  position : Option String
deriving DecidableEq, Repr

/-- The stateful cursor variables of `_process_mod` (lines 803-806),
together with the buffer they act on.  `matchSpan = none` embeds
`match_start == -1`. -/
structure EditState where
  content : List Char
  cursor : Nat
  matchSpan : Option (Nat × Nat)
deriving DecidableEq, Repr

/-- One iteration of the directive loop of `_process_mod`
(ModManager19.py lines 809-884): dispatch on the lowered tag and apply
the find / findup / replace / insert semantics; unknown tags fall
through with no effect. -/
def procChild (newlineMode : List Char) (st : EditState) (child : XmlChild) : EditState :=
  let tag := lowerString child.tag
  let searchText := normalizeText newlineMode child.text
  if tag = "find" then
    match strFind st.content searchText st.cursor with
    | some i =>
        { st with matchSpan := some (i, i + searchText.length),
                  cursor := i + searchText.length }
    | none => st
  else if tag = "findup" then
    let startPos := if child.position = some "end" then st.content.length else st.cursor
    match strRfind st.content searchText startPos with
    | some i =>
        { st with matchSpan := some (i, i + searchText.length),
                  cursor := i + searchText.length }
    | none => st
  else if tag = "replace" then
    match st.matchSpan with
    | some (ms, me) =>
        { content := st.content.take ms ++ searchText ++ st.content.drop me,
          matchSpan := some (ms, ms + searchText.length),
          cursor := ms + searchText.length }
    | none => st
  else if tag = "insert" then
    match st.matchSpan with
    | some (ms, me) =>
        if child.position.getD "after" = "before" then
          { content := st.content.take ms ++ searchText ++ st.content.drop ms,
            matchSpan := some (ms + searchText.length, me + searchText.length),
            cursor := st.cursor + searchText.length }
        else
          { content := st.content.take me ++ searchText ++ st.content.drop me,
            matchSpan := some (ms, me),
            cursor := st.cursor + searchText.length }
    | none => st
  else st

/-- The full directive loop over one `editfile` block. -/
def runBlock (newlineMode : List Char) (st : EditState) (children : List XmlChild) : EditState :=
  children.foldl (procChild newlineMode) st

/-! ## Byte content and the decode / encode pipeline

File content in archives and in the working file table is raw bytes
(`List Nat`, each element `< 256`).  `_process_mod` decodes a target
with UTF-8, falls back to Latin-1 on a `UnicodeDecodeError`, and
re-encodes the edited text with UTF-8 (lines 792-795 and 886). -/

/-- Strict UTF-8 decoding (CPython's default codec): rejects stray or
missing continuation bytes, overlong forms, surrogates and code points
above U+10FFFF; `none` embeds a raised `UnicodeDecodeError`. -/
def utf8DecodeBytes : List Nat → Option (List Char)
  | [] => some []
  | b :: rest =>
    if b < 0x80 then
      (utf8DecodeBytes rest).map (Char.ofNat b :: ·)
    else if 0xC2 ≤ b ∧ b ≤ 0xDF then
      match rest with
      | c1 :: rest2 =>
        if 0x80 ≤ c1 ∧ c1 ≤ 0xBF then
          (utf8DecodeBytes rest2).map (Char.ofNat ((b - 0xC0) * 0x40 + (c1 - 0x80)) :: ·)
        else none
      | [] => none
    else if 0xE0 ≤ b ∧ b ≤ 0xEF then
      match rest with
      | c1 :: c2 :: rest2 =>
        let lo1 := if b = 0xE0 then 0xA0 else 0x80
        let hi1 := if b = 0xED then 0x9F else 0xBF
        if (lo1 ≤ c1 ∧ c1 ≤ hi1) ∧ (0x80 ≤ c2 ∧ c2 ≤ 0xBF) then
          (utf8DecodeBytes rest2).map
            (Char.ofNat ((b - 0xE0) * 0x1000 + (c1 - 0x80) * 0x40 + (c2 - 0x80)) :: ·)
        else none
      | _ => none
    else if 0xF0 ≤ b ∧ b ≤ 0xF4 then
      match rest with
      | c1 :: c2 :: c3 :: rest2 =>
        let lo1 := if b = 0xF0 then 0x90 else 0x80
        let hi1 := if b = 0xF4 then 0x8F else 0xBF
        if (lo1 ≤ c1 ∧ c1 ≤ hi1) ∧ (0x80 ≤ c2 ∧ c2 ≤ 0xBF) ∧ (0x80 ≤ c3 ∧ c3 ≤ 0xBF) then
          (utf8DecodeBytes rest2).map
            (Char.ofNat ((b - 0xF0) * 0x40000 + (c1 - 0x80) * 0x1000
              + (c2 - 0x80) * 0x40 + (c3 - 0x80)) :: ·)
        else none
      | _ => none
    else none

/-- Latin-1 decoding: one char per byte; never fails. -/
def latin1DecodeBytes (bs : List Nat) : List Char :=
  bs.map Char.ofNat

/-- The decode step of `_process_mod` (lines 792-795): UTF-8 first,
Latin-1 on failure. -/
def decodeContent (bs : List Nat) : List Char :=
  match utf8DecodeBytes bs with
  | some text => text
  | none => latin1DecodeBytes bs

/-- UTF-8 encoding of one code point. -/
def utf8EncodeChar (c : Char) : List Nat :=
  let n := c.toNat
  if n < 0x80 then [n]
  else if n < 0x800 then [0xC0 + n / 0x40, 0x80 + n % 0x40]
  else if n < 0x10000 then
    [0xE0 + n / 0x1000, 0x80 + (n / 0x40) % 0x40, 0x80 + n % 0x40]
  else
    [0xF0 + n / 0x40000, 0x80 + (n / 0x1000) % 0x40, 0x80 + (n / 0x40) % 0x40, 0x80 + n % 0x40]

/-- The re-encode step of `_process_mod` (line 886):
`text_content.encode('utf-8')`. -/
def utf8Encode (text : List Char) : List Nat :=
  text.flatMap utf8EncodeChar

/-! ## The working file table and archives

`modified_files` is a Python dict from archive-relative path to bytes;
CPython dicts preserve insertion order and in-place updates keep a
key's position, which the association-list operations below mirror.
A zip archive's content mapping is embedded the same way. -/

/-- Archive-relative path ↦ byte content, in insertion order. -/
abbrev Table := List (String × List Nat)

/-- Python dict lookup `t.get(k)` (`none` embeds `None`). -/
def tblGet (t : Table) (k : String) : Option (List Nat) :=
  match t.find? (fun e => e.1 = k) with
  | some e => some e.2
  | none => none

/-- Python dict membership `k in t`. -/
def tblMem (t : Table) (k : String) : Bool :=
  (tblGet t k).isSome

/-- Python dict assignment `t[k] = v`: update in place when the key
exists, append otherwise. -/
def tblSet : Table → String → List Nat → Table
  | [], k, v => [(k, v)]
  | (k', v') :: rest, k, v =>
    if k' = k then (k, v) :: rest else (k', v') :: tblSet rest k v

/-- `ModApplicator._load_base_file` (lines 893-902): fetch `filename`
from the base archive into the table unless the table already has it;
a path absent from the base archive is only logged. -/
def loadBaseFile (base : Table) (filename : String) (t : Table) : Table :=
  if tblMem t filename then t
  else
    match tblGet base filename with
    | some content => tblSet t filename content
    | none => t

/-! ## Mod packages and `_process_mod` -/

/-- One parsed `editfile` element: its `name` attribute and its child
nodes in document order. -/
structure EditBlock where
  name : Option String
  children : List XmlChild
deriving DecidableEq, Repr

/-- One mod package zip: its entries (`infolist` order, with the
directory flag) and, when `mod.xml` is a member, the `editfile` blocks
parsed from it. -/
structure ModPackage where
  files : List (String × Bool × List Nat)
  modXml : Option (List EditBlock)
deriving DecidableEq, Repr

/-- One entry of `mods_data`. -/
structure ModEntry where
  name : String
  enabled : Bool
  pkg : ModPackage
deriving DecidableEq, Repr

/-- The reserved member names excluded from asset injection (line 763). -/
def ignoredFiles : List String :=
  ["mod.xml", "icon.png", "changelog.txt", "icon.jpg", "thumbs.db"]

/-- `fname.replace("\\", "/")` (line 767; the pattern and the
replacement are single characters, so this is a character-wise map). -/
def cleanName (fname : String) : String :=
  ⟨fname.data.map (fun c => if c = '\\' then '/' else c)⟩

/-- The asset-injection loop of `_process_mod` (lines 765-770). -/
def injectAssets (pkg : ModPackage) (t : Table) : Table :=
  pkg.files.foldl
    (fun acc entry =>
      let fnameClean := cleanName entry.1
      if entry.2.1 || ignoredFiles.contains (lowerString fnameClean) then acc
      else tblSet acc fnameClean entry.2.2)
    t

/-- Interpretation of one `editfile` block's children against one
decoded buffer (lines 797-884): detect the line-ending mode once, run
the directive loop from `cursor = 0`, `match_start = -1`. -/
def applyEditBlockText (text : List Char) (children : List XmlChild) : List Char :=
  (runBlock (detectNewline text) ⟨text, 0, none⟩ children).content

/-- One iteration of the `editfile` loop of `_process_mod` (lines
779-886): skip on a missing/empty `name` attribute, lazily load the
target from the base archive, skip when the content is absent or falsy
(empty bytes), otherwise decode, run the directives and store the
UTF-8 re-encoding back at the target path. -/
def processEditBlock (base : Table) (t : Table) (blk : EditBlock) : Table :=
  match blk.name with
  | none => t
  | some target =>
    if target = "" then t
    else
      let t1 := if tblMem t target then t else loadBaseFile base target t
      match tblGet t1 target with
      | none => t1
      | some [] => t1
      | some bytes =>
          tblSet t1 target
            (utf8Encode (applyEditBlockText (decodeContent bytes) blk.children))

/-- `ModApplicator._process_mod` (lines 757-891): inject the package's
assets, then run every `editfile` block of `mod.xml` (when present) in
document order against the shared table. -/
def processMod (base : Table) (pkg : ModPackage) (t : Table) : Table :=
  let t1 := injectAssets pkg t
  match pkg.modXml with
  | none => t1
  | some blocks => blocks.foldl (processEditBlock base) t1

/-! ## The orchestrator `apply_mods`

The filesystem state visible to `apply_mods` is the base archive
(`resources0.jz` under the game folder), the temporary output
(`extensions/resources0.zip`) and the final output
(`extensions/resources0.jz`) — three distinct paths; `none` embeds a
missing file.  An archive on disk is embedded by its content mapping.
I/O faults of the three fallible steps inside the `try` block are
injected explicitly: `some e` means the corresponding call raises an
exception whose `str` is `e`. -/

structure FS where
  base : Option Table
  temp : Option Table
  final : Option Table
deriving DecidableEq, Repr

structure Faults where
  writeTemp : Option String
  removeFinal : Option String
  renameTemp : Option String
deriving DecidableEq, Repr

/-- The fault-free run. -/
def noFaults : Faults := ⟨none, none, none⟩

/-- The `except` handler of `apply_mods` (lines 751-755): delete the
temporary artifact when present and return failure with `str(e)`. -/
def applyModsHandler (e : String) (fs : FS) : (Bool × String) × FS :=
  ((false, e), { fs with temp := none })

/-- `ModApplicator.apply_mods` (lines 708-755).  Returns the
`(success, message)` pair and the filesystem state after the run.
With no enabled mods the final output is deleted and the run reports
success; with the base archive missing it fails untouched; otherwise
the working file table is accumulated over the enabled mods in order,
written to the temporary path, and committed by delete-then-rename,
any exception being routed to `applyModsHandler`. -/
def applyMods (modsData : List ModEntry) (fs : FS) (f : Faults) : (Bool × String) × FS :=
  let enabledMods := modsData.filter (·.enabled)
  if enabledMods.isEmpty then
    ((true, "All mods disabled. (Cleaned up resources0.jz)"), { fs with final := none })
  else
    match fs.base with
    | none => ((false, "Base archive not found"), fs)
    | some base =>
      let table := enabledMods.foldl (fun t m => processMod base m.pkg t) []
      -- `with zipfile.ZipFile(self.temp_output_path, 'w', ...)`: the
      -- temporary file is created, then the entries are written; a
      -- fault raises after creation.
      let fs1 := { fs with temp := some table }
      match f.writeTemp with
      | some e => applyModsHandler e fs1
      | none =>
        -- `if self.final_output_path.exists(): os.remove(...)`
        match fs1.final with
        | some _ =>
          match f.removeFinal with
          | some e => applyModsHandler e fs1
          | none =>
            let fs2 := { fs1 with final := none }
            match f.renameTemp with
            | some e => applyModsHandler e fs2
            | none =>
              ((true, "Successfully applied "
                        ++ toString enabledMods.length ++ " mods to resources0.jz"),
                { fs2 with temp := none, final := some table })
        | none =>
          match f.renameTemp with
          | some e => applyModsHandler e fs1
          | none =>
            ((true, "Successfully applied "
                      ++ toString enabledMods.length ++ " mods to resources0.jz"),
              { fs1 with temp := none, final := some table })

/-! ## Spec-side observation functions

These are not translations of source code; they only name the
quantities the specification's sentences talk about. -/

/-- The text a span `(a, b)` denotes inside a buffer `s`, i.e.
Python's `s[a:b]` for `a ≤ b`. -/
def listSeg (s : List Char) (a b : Nat) : List Char :=
  (s.drop a).take (b - a)

/-- The key set (in order) of a table. -/
def tblKeys (t : Table) : List String :=
  t.map (·.1)

/-- Every archive-relative path a package can put into the working
file table: the cleaned names of its entries plus the targets named by
its `editfile` blocks. -/
def pkgTouchedPaths (pkg : ModPackage) : List String :=
  pkg.files.map (fun e => cleanName e.1)
    ++ (match pkg.modXml with
        | none => []
        | some blocks => blocks.filterMap (·.name))

/-! ## Characterization of the search primitives -/

theorem occursAt_length_le {s sub : List Char} {i : Nat} (h : occursAt s sub i = true) :
    i + sub.length ≤ s.length := by
  unfold occursAt at h
  simp only [Bool.and_eq_true, decide_eq_true_eq] at h
  exact h.1

theorem occursAt_eq_false_of_lt {s sub : List Char} {j : Nat} (h : s.length < j + sub.length) :
    occursAt s sub j = false := by
  cases hocc : occursAt s sub j with
  | false => rfl
  | true => exact absurd (occursAt_length_le hocc) (by omega)

theorem findFrom_eq_none_iff (s sub : List Char) :
    ∀ (fuel i : Nat), findFrom s sub i fuel = none ↔
      ∀ j, i ≤ j → j < i + fuel → occursAt s sub j = false := by
  intro fuel
  induction fuel with
  | zero =>
    intro i
    simp only [findFrom, true_iff]
    intro j h1 h2
    omega
  | succ n ih =>
    intro i
    unfold findFrom
    cases hocc : occursAt s sub i with
    | true =>
      simp only [hocc, if_true]
      constructor
      · intro h; cases h
      · intro h
        have := h i (Nat.le_refl i) (by omega)
        rw [hocc] at this
        cases this
    | false =>
      simp only [hocc, if_false, Bool.false_eq_true]
      rw [ih (i + 1)]
      constructor
      · intro h j hij hlt
        rcases Nat.eq_or_lt_of_le hij with rfl | hlt'
        · exact hocc
        · exact h j hlt' (by omega)
      · intro h j hij hlt
        exact h j (by omega) (by omega)

theorem findFrom_eq_some (s sub : List Char) :
    ∀ (fuel i k : Nat), findFrom s sub i fuel = some k →
      i ≤ k ∧ occursAt s sub k = true ∧
        ∀ j, i ≤ j → j < k → occursAt s sub j = false := by
  intro fuel
  induction fuel with
  | zero => intro i k h; cases h
  | succ n ih =>
    intro i k h
    unfold findFrom at h
    cases hocc : occursAt s sub i with
    | true =>
      rw [hocc, if_pos rfl] at h
      cases h
      exact ⟨Nat.le_refl i, hocc, fun j h1 h2 => by omega⟩
    | false =>
      rw [hocc] at h
      simp only [Bool.false_eq_true, if_false] at h
      obtain ⟨h1, h2, h3⟩ := ih (i + 1) k h
      refine ⟨by omega, h2, fun j hij hjk => ?_⟩
      rcases Nat.eq_or_lt_of_le hij with rfl | hlt'
      · exact hocc
      · exact h3 j (by omega) hjk

theorem strFind_eq_none_iff (s sub : List Char) (start : Nat) :
    strFind s sub start = none ↔ ∀ j, start ≤ j → occursAt s sub j = false := by
  unfold strFind
  rw [findFrom_eq_none_iff]
  constructor
  · intro h j hj
    by_cases hlt : j < start + (s.length + 1 - start)
    · exact h j hj hlt
    · exact occursAt_eq_false_of_lt (by omega)
  · intro h j hj _
    exact h j hj

theorem strFind_eq_some {s sub : List Char} {start k : Nat} (h : strFind s sub start = some k) :
    start ≤ k ∧ occursAt s sub k = true ∧
      ∀ j, start ≤ j → j < k → occursAt s sub j = false :=
  findFrom_eq_some s sub _ start k h

theorem strFind_empty_of_le {s : List Char} {start : Nat} (h : start ≤ s.length) :
    strFind s [] start = some start := by
  unfold strFind
  have hf : s.length + 1 - start = (s.length - start) + 1 := by omega
  rw [hf]
  unfold findFrom
  have hocc : occursAt s [] start = true := by
    unfold occursAt
    simp
    omega
  rw [hocc, if_pos rfl]

theorem rfindDown_eq_none_iff (s sub : List Char) :
    ∀ k, rfindDown s sub k = none ↔ ∀ j, j ≤ k → occursAt s sub j = false := by
  intro k
  induction k with
  | zero =>
    unfold rfindDown
    cases hocc : occursAt s sub 0 with
    | true =>
      simp only [if_true]
      constructor
      · intro h; cases h
      · intro h
        have := h 0 (Nat.le_refl 0)
        rw [hocc] at this
        cases this
    | false =>
      simp only [Bool.false_eq_true, if_false, true_iff]
      intro j hj
      have : j = 0 := by omega
      rw [this]
      exact hocc
  | succ n ih =>
    unfold rfindDown
    cases hocc : occursAt s sub (n + 1) with
    | true =>
      simp only [if_true]
      constructor
      · intro h; cases h
      · intro h
        have := h (n + 1) (Nat.le_refl _)
        rw [hocc] at this
        cases this
    | false =>
      simp only [Bool.false_eq_true, if_false]
      rw [ih]
      constructor
      · intro h j hj
        rcases Nat.lt_or_ge j (n + 1) with hlt | hge
        · exact h j (by omega)
        · have : j = n + 1 := by omega
          rw [this]
          exact hocc
      · intro h j hj
        exact h j (by omega)

theorem rfindDown_eq_some (s sub : List Char) :
    ∀ k i, rfindDown s sub k = some i →
      i ≤ k ∧ occursAt s sub i = true ∧
        ∀ j, i < j → j ≤ k → occursAt s sub j = false := by
  intro k
  induction k with
  | zero =>
    intro i h
    unfold rfindDown at h
    cases hocc : occursAt s sub 0 with
    | true =>
      rw [hocc, if_pos rfl] at h
      cases h
      exact ⟨Nat.le_refl 0, hocc, fun j h1 h2 => by omega⟩
    | false =>
      rw [hocc] at h
      simp at h
  | succ n ih =>
    intro i h
    unfold rfindDown at h
    cases hocc : occursAt s sub (n + 1) with
    | true =>
      rw [hocc, if_pos rfl] at h
      cases h
      exact ⟨Nat.le_refl _, hocc, fun j h1 h2 => by omega⟩
    | false =>
      rw [hocc] at h
      simp only [Bool.false_eq_true, if_false] at h
      obtain ⟨h1, h2, h3⟩ := ih i h
      refine ⟨by omega, h2, fun j hij hjk => ?_⟩
      rcases Nat.lt_or_ge j (n + 1) with hlt | hge
      · exact h3 j hij (by omega)
      · have : j = n + 1 := by omega
        rw [this]
        exact hocc

theorem strRfind_eq_none_iff (s sub : List Char) (stop : Nat) :
    strRfind s sub stop = none ↔
      ∀ j, j + sub.length ≤ min stop s.length → occursAt s sub j = false := by
  unfold strRfind
  by_cases hle : sub.length ≤ min stop s.length
  · rw [if_pos hle, rfindDown_eq_none_iff]
    constructor
    · intro h j hj
      exact h j (by omega)
    · intro h j hj
      exact h j (by omega)
  · rw [if_neg hle]
    simp only [true_iff]
    intro j hj
    omega

theorem strRfind_eq_some {s sub : List Char} {stop i : Nat} (h : strRfind s sub stop = some i) :
    occursAt s sub i = true ∧ i + sub.length ≤ min stop s.length ∧
      ∀ j, i < j → j + sub.length ≤ min stop s.length → occursAt s sub j = false := by
  unfold strRfind at h
  by_cases hle : sub.length ≤ min stop s.length
  · rw [if_pos hle] at h
    obtain ⟨h1, h2, h3⟩ := rfindDown_eq_some s sub _ i h
    exact ⟨h2, by omega, fun j hij hj => h3 j hij (by omega)⟩
  · rw [if_neg hle] at h
    cases h

/-! ## Unfolding lemmas for the directive dispatch -/

theorem procChild_find (nl : List Char) (st : EditState) (raw : List Char)
    (pos : Option String) :
    procChild nl st ⟨"find", raw, pos⟩ =
      match strFind st.content (normalizeText nl raw) st.cursor with
      | some i =>
          { st with matchSpan := some (i, i + (normalizeText nl raw).length),
                    cursor := i + (normalizeText nl raw).length }
      | none => st := rfl

theorem procChild_findup (nl : List Char) (st : EditState) (raw : List Char)
    (pos : Option String) :
    procChild nl st ⟨"findup", raw, pos⟩ =
      match strRfind st.content (normalizeText nl raw)
          (if pos = some "end" then st.content.length else st.cursor) with
      | some i =>
          { st with matchSpan := some (i, i + (normalizeText nl raw).length),
                    cursor := i + (normalizeText nl raw).length }
      | none => st := rfl

theorem procChild_replace (nl : List Char) (st : EditState) (raw : List Char)
    (pos : Option String) :
    procChild nl st ⟨"replace", raw, pos⟩ =
      match st.matchSpan with
      | some (ms, me) =>
          { content := st.content.take ms ++ normalizeText nl raw ++ st.content.drop me,
            matchSpan := some (ms, ms + (normalizeText nl raw).length),
            cursor := ms + (normalizeText nl raw).length }
      | none => st := rfl

theorem procChild_insert (nl : List Char) (st : EditState) (raw : List Char)
    (pos : Option String) :
    procChild nl st ⟨"insert", raw, pos⟩ =
      match st.matchSpan with
      | some (ms, me) =>
          if pos.getD "after" = "before" then
            { content := st.content.take ms ++ normalizeText nl raw ++ st.content.drop ms,
              matchSpan := some (ms + (normalizeText nl raw).length,
                                 me + (normalizeText nl raw).length),
              cursor := st.cursor + (normalizeText nl raw).length }
          else
            { content := st.content.take me ++ normalizeText nl raw ++ st.content.drop me,
              matchSpan := some (ms, me),
              cursor := st.cursor + (normalizeText nl raw).length }
      | none => st := rfl

theorem runBlock_cons (nl : List Char) (st : EditState) (c : XmlChild)
    (cs : List XmlChild) :
    runBlock nl st (c :: cs) = runBlock nl (procChild nl st c) cs := rfl

/-! ## Splice helpers -/

theorem drop_take_append {c : List Char} {ms : Nat} (x rest : List Char)
    (h : ms ≤ c.length) :
    (c.take ms ++ x ++ rest).drop ms = x ++ rest := by
  have hlen : (c.take ms).length = ms := by
    simp [List.length_take]
    omega
  calc (c.take ms ++ x ++ rest).drop ms
      = (c.take ms ++ (x ++ rest)).drop (c.take ms).length := by rw [hlen, List.append_assoc]
    _ = x ++ rest := List.drop_left _ _

theorem listSeg_splice {c : List Char} {ms : Nat} (x rest : List Char)
    (h : ms ≤ c.length) :
    listSeg (c.take ms ++ x ++ rest) ms (ms + x.length) = x := by
  unfold listSeg
  rw [drop_take_append x rest h]
  have : ms + x.length - ms = x.length := by omega
  rw [this, List.take_left]

theorem take_take_append {c : List Char} {ms : Nat} (x rest : List Char)
    (h : ms ≤ c.length) :
    (c.take ms ++ x ++ rest).take (ms + x.length) = c.take ms ++ x := by
  have hlen : (c.take ms ++ x).length = ms + x.length := by
    simp [List.length_append, List.length_take]
    omega
  rw [← hlen, List.take_left]

theorem listSeg_shifted {c : List Char} {ms me : Nat} (x : List Char)
    (h : ms ≤ c.length) :
    listSeg (c.take ms ++ x ++ c.drop ms) (ms + x.length) (me + x.length)
      = listSeg c ms me := by
  unfold listSeg
  have h2 : (c.take ms ++ x ++ c.drop ms).drop (ms + x.length) = c.drop ms := by
    have hlen : (c.take ms ++ x).length = ms + x.length := by
      simp [List.length_append, List.length_take]
      omega
    rw [← hlen, List.drop_left]
  rw [h2]
  congr 1
  omega

theorem drop_insert_before {c : List Char} {ms me : Nat} (x : List Char)
    (h : ms ≤ c.length) (hms : ms ≤ me) :
    (c.take ms ++ x ++ c.drop ms).drop (me + x.length) = c.drop me := by
  have hlen : (c.take ms ++ x).length = ms + x.length := by
    simp [List.length_append, List.length_take]
    omega
  have he : me + x.length = (c.take ms ++ x).length + (me - ms) := by
    rw [hlen]
    omega
  rw [he, List.drop_append, List.drop_drop]
  congr 1
  omega

theorem replaceAll_nil_of_ne (old new : List Char) (h : old ≠ []) :
    replaceAll old new [] = [] := by
  unfold replaceAll
  rw [if_neg h]
  unfold replaceAllAux
  rw [if_neg (fun hc => h (by simpa using hc.symm))]

theorem normalizeText_nil (nl : List Char) : normalizeText nl [] = [] := by
  unfold normalizeText
  rw [replaceAll_nil_of_ne crlf lf (by decide), replaceAll_nil_of_ne lf nl (by decide)]

/-! ## Claims about the Patch Directive Interpreter -/

/-- C3: with an active match span `(ms, me)` over the buffer, a
`replace` directive splices its (newline-normalized) text in place of
the matched range, recomputes the match span to exactly cover the
inserted text, and sets the cursor to the new span's end; with no
active span it is a no-op; and after the replace, if the original
text occurs nowhere at or after the new cursor, a subsequent `find`
for it fails and leaves the state unchanged. -/
theorem claim_C3 (nl content : List Char) (cursor ms me : Nat) (rawR : List Char)
    (pos : Option String) (hms : ms ≤ me) (hme : me ≤ content.length) :
    procChild nl ⟨content, cursor, some (ms, me)⟩ ⟨"replace", rawR, pos⟩
      = ⟨content.take ms ++ normalizeText nl rawR ++ content.drop me,
         ms + (normalizeText nl rawR).length,
         some (ms, ms + (normalizeText nl rawR).length)⟩
    ∧ listSeg (content.take ms ++ normalizeText nl rawR ++ content.drop me)
        ms (ms + (normalizeText nl rawR).length) = normalizeText nl rawR
    ∧ (∀ st : EditState, st.matchSpan = none →
        procChild nl st ⟨"replace", rawR, pos⟩ = st)
    ∧ (∀ rawO : List Char,
        (∀ i, ms + (normalizeText nl rawR).length ≤ i →
          occursAt (content.take ms ++ normalizeText nl rawR ++ content.drop me)
            (normalizeText nl rawO) i = false) →
        procChild nl
          ⟨content.take ms ++ normalizeText nl rawR ++ content.drop me,
           ms + (normalizeText nl rawR).length,
           some (ms, ms + (normalizeText nl rawR).length)⟩
          ⟨"find", rawO, pos⟩
        = ⟨content.take ms ++ normalizeText nl rawR ++ content.drop me,
           ms + (normalizeText nl rawR).length,
           some (ms, ms + (normalizeText nl rawR).length)⟩) := by
  refine ⟨?_, ?_, ?_, ?_⟩
  · rw [procChild_replace]
  · exact listSeg_splice _ _ (Nat.le_trans hms hme)
  · intro st hnone
    rw [procChild_replace, hnone]
  · intro rawO hno
    rw [procChild_find]
    have hnone : strFind (content.take ms ++ normalizeText nl rawR ++ content.drop me)
        (normalizeText nl rawO) (ms + (normalizeText nl rawR).length) = none :=
      (strFind_eq_none_iff _ _ _).mpr hno
    simp only [hnone]

/-- Witness for C3 at a concrete input: replacing the match on
"world" in "hello world" with "there". -/
theorem claim_C3_witness :
    procChild lf ⟨"hello world".data, 11, some (6, 11)⟩ ⟨"replace", "there".data, none⟩
      = ⟨"hello world".data.take 6 ++ normalizeText lf "there".data
           ++ "hello world".data.drop 11,
         6 + (normalizeText lf "there".data).length,
         some (6, 6 + (normalizeText lf "there".data).length)⟩ :=
  (claim_C3 lf "hello world".data 11 6 11 "there".data none (by decide) (by decide)).1

/-- C4: with an active match span `(ms, me)`, an `insert` with
position "before" splices its (newline-normalized) text immediately
before `ms` and shifts the span and the cursor forward by its length,
so that the shifted span still denotes the originally matched text and
a following `replace` replaces the original match (keeping the
insertion); an `insert` whose position attribute is not "before"
(explicitly "after" or absent, the default) splices immediately after
`me`, advances the cursor by the inserted length and leaves the span
unshifted; with no active span `insert` is a no-op. -/
theorem claim_C4 (nl content : List Char) (cursor ms me : Nat) (rawI rawR : List Char)
    (hms : ms ≤ me) (hme : me ≤ content.length) :
    procChild nl ⟨content, cursor, some (ms, me)⟩ ⟨"insert", rawI, some "before"⟩
      = ⟨content.take ms ++ normalizeText nl rawI ++ content.drop ms,
         cursor + (normalizeText nl rawI).length,
         some (ms + (normalizeText nl rawI).length, me + (normalizeText nl rawI).length)⟩
    ∧ listSeg (content.take ms ++ normalizeText nl rawI ++ content.drop ms)
        (ms + (normalizeText nl rawI).length) (me + (normalizeText nl rawI).length)
      = listSeg content ms me
    ∧ (∀ pos : Option String,
        (procChild nl
          ⟨content.take ms ++ normalizeText nl rawI ++ content.drop ms,
           cursor + (normalizeText nl rawI).length,
           some (ms + (normalizeText nl rawI).length,
                 me + (normalizeText nl rawI).length)⟩
          ⟨"replace", rawR, pos⟩).content
        = content.take ms ++ normalizeText nl rawI ++ normalizeText nl rawR
            ++ content.drop me)
    ∧ (∀ pos : Option String, pos.getD "after" ≠ "before" →
        procChild nl ⟨content, cursor, some (ms, me)⟩ ⟨"insert", rawI, pos⟩
          = ⟨content.take me ++ normalizeText nl rawI ++ content.drop me,
             cursor + (normalizeText nl rawI).length, some (ms, me)⟩)
    ∧ (∀ (st : EditState) (pos : Option String), st.matchSpan = none →
        procChild nl st ⟨"insert", rawI, pos⟩ = st) := by
  have hmsc : ms ≤ content.length := Nat.le_trans hms hme
  refine ⟨?_, ?_, ?_, ?_, ?_⟩
  · rw [procChild_insert]
    rfl
  · exact listSeg_shifted _ hmsc
  · intro pos
    rw [procChild_replace]
    show (content.take ms ++ normalizeText nl rawI ++ content.drop ms).take
          (ms + (normalizeText nl rawI).length)
        ++ normalizeText nl rawR
        ++ (content.take ms ++ normalizeText nl rawI ++ content.drop ms).drop
             (me + (normalizeText nl rawI).length)
      = content.take ms ++ normalizeText nl rawI ++ normalizeText nl rawR
          ++ content.drop me
    rw [take_take_append _ _ hmsc, drop_insert_before _ hmsc hms, List.append_assoc]
  · intro pos hpos
    rw [procChild_insert]
    simp only [if_neg hpos]
  · intro st pos hnone
    rw [procChild_insert, hnone]

/-- Witness for C4 at a concrete input: inserting "XX" before the
match on "cd" in "abcdef", then replacing it with "YY". -/
theorem claim_C4_witness :
    procChild lf ⟨"abcdef".data, 4, some (2, 4)⟩ ⟨"insert", "XX".data, some "before"⟩
      = ⟨"abcdef".data.take 2 ++ normalizeText lf "XX".data ++ "abcdef".data.drop 2,
         4 + (normalizeText lf "XX".data).length,
         some (2 + (normalizeText lf "XX".data).length,
               4 + (normalizeText lf "XX".data).length)⟩ :=
  (claim_C4 lf "abcdef".data 4 2 4 "XX".data "YY".data (by decide) (by decide)).1

/-- C5: a `findup` directive searches backward for the last occurrence
of its (newline-normalized) text ending at or before a bound, the
bound being the buffer's end when the position attribute is "end" (so
the result is independent of the cursor) and the cursor otherwise; on
success it sets the match span to the found range and the cursor to
its end, on failure it leaves the state unchanged and no occurrence
ends at or before the bound. -/
theorem claim_C5 (nl content : List Char) (cursor : Nat) (mspan : Option (Nat × Nat))
    (raw : List Char) (pos : Option String) :
    (∀ i, strRfind content (normalizeText nl raw)
        (if pos = some "end" then content.length else cursor) = some i →
      procChild nl ⟨content, cursor, mspan⟩ ⟨"findup", raw, pos⟩
        = ⟨content, i + (normalizeText nl raw).length,
           some (i, i + (normalizeText nl raw).length)⟩
      ∧ occursAt content (normalizeText nl raw) i = true
      ∧ i + (normalizeText nl raw).length
          ≤ (if pos = some "end" then content.length else cursor)
      ∧ (∀ j, i < j →
          j + (normalizeText nl raw).length
            ≤ (if pos = some "end" then content.length else cursor) →
          occursAt content (normalizeText nl raw) j = false))
    ∧ (strRfind content (normalizeText nl raw)
          (if pos = some "end" then content.length else cursor) = none →
        procChild nl ⟨content, cursor, mspan⟩ ⟨"findup", raw, pos⟩
            = ⟨content, cursor, mspan⟩
        ∧ ∀ j, j + (normalizeText nl raw).length
              ≤ (if pos = some "end" then content.length else cursor) →
            occursAt content (normalizeText nl raw) j = false) := by
  constructor
  · intro i hsome
    obtain ⟨hocc, hle, hmax⟩ := strRfind_eq_some hsome
    refine ⟨?_, hocc, ?_, ?_⟩
    · rw [procChild_findup]
      simp only [hsome]
    · omega
    · intro j hij hj
      cases hjo : occursAt content (normalizeText nl raw) j with
      | false => rfl
      | true =>
        have := occursAt_length_le hjo
        have := hmax j hij (by omega)
        rw [hjo] at this
        cases this
  · intro hnone
    constructor
    · rw [procChild_findup]
      simp only [hnone]
    · intro j hj
      cases hjo : occursAt content (normalizeText nl raw) j with
      | false => rfl
      | true =>
        have h1 := occursAt_length_le hjo
        have h2 := (strRfind_eq_none_iff _ _ _).mp hnone j (by omega)
        rw [hjo] at h2
        cases h2

/-- Witness for C5 at a concrete input: a `findup` with position
"end" over "abcabc" locates the last "bc" even though the cursor is
at the start. -/
theorem claim_C5_witness :
    procChild lf ⟨"abcabc".data, 0, none⟩ ⟨"findup", "bc".data, some "end"⟩
      = ⟨"abcabc".data, 4 + (normalizeText lf "bc".data).length,
         some (4, 4 + (normalizeText lf "bc".data).length)⟩ :=
  ((claim_C5 lf "abcabc".data 0 none "bc".data (some "end")).1 4 (by decide)).1

/-- C6: a `find` whose literal occurs nowhere at or after the cursor,
a `findup` whose literal occurs nowhere ending at or before its bound,
and a `replace` or `insert` with no active match span, all leave the
state (buffer, cursor and match span) unchanged; and a directive that
leaves the state unchanged does not abort the block, the remaining
directives executing against the unchanged state. -/
theorem claim_C6 (nl : List Char) (st : EditState) (raw : List Char)
    (pos : Option String) (cs : List XmlChild) :
    ((∀ i, st.cursor ≤ i →
        occursAt st.content (normalizeText nl raw) i = false) →
      procChild nl st ⟨"find", raw, pos⟩ = st)
    ∧ ((∀ j, j + (normalizeText nl raw).length
          ≤ (if pos = some "end" then st.content.length else st.cursor) →
        occursAt st.content (normalizeText nl raw) j = false) →
      procChild nl st ⟨"findup", raw, pos⟩ = st)
    ∧ (st.matchSpan = none → procChild nl st ⟨"replace", raw, pos⟩ = st)
    ∧ (st.matchSpan = none → procChild nl st ⟨"insert", raw, pos⟩ = st)
    ∧ (∀ c : XmlChild, procChild nl st c = st →
        runBlock nl st (c :: cs) = runBlock nl st cs) := by
  refine ⟨?_, ?_, ?_, ?_, ?_⟩
  · intro h
    rw [procChild_find]
    have hnone : strFind st.content (normalizeText nl raw) st.cursor = none :=
      (strFind_eq_none_iff _ _ _).mpr h
    simp only [hnone]
  · intro h
    rw [procChild_findup]
    have hnone : strRfind st.content (normalizeText nl raw)
        (if pos = some "end" then st.content.length else st.cursor) = none := by
      rw [strRfind_eq_none_iff]
      intro j hj
      exact h j (by omega)
    simp only [hnone]
  · intro hnone
    rw [procChild_replace, hnone]
  · intro hnone
    rw [procChild_insert, hnone]
  · intro c hc
    rw [runBlock_cons, hc]

/-- Witness for C6 at a concrete input: a failed `find` for "zz" in
"abc" is a no-op and the rest of the block still runs. -/
theorem claim_C6_witness :
    procChild lf ⟨"abc".data, 0, none⟩ ⟨"find", "zz".data, none⟩ = ⟨"abc".data, 0, none⟩ :=
  (claim_C6 lf ⟨"abc".data, 0, none⟩ "zz".data none []).1
    (fun i _ => (strFind_eq_none_iff "abc".data (normalizeText lf "zz".data) 0).mp
      (by decide) i (Nat.zero_le i))

/-- C10: a `find` directive with an empty literal always succeeds when
the cursor lies within the buffer, setting the match span to the
zero-length span at the cursor and leaving the cursor unchanged; that
span counts as an active match, so a following `replace` splices its
text into the buffer at that position instead of being a no-op. -/
theorem claim_C10 (nl : List Char) (st : EditState) (pos posR : Option String)
    (rawR : List Char) (h : st.cursor ≤ st.content.length) :
    procChild nl st ⟨"find", [], pos⟩ = { st with matchSpan := some (st.cursor, st.cursor) }
    ∧ procChild nl { st with matchSpan := some (st.cursor, st.cursor) }
        ⟨"replace", rawR, posR⟩
      = ⟨st.content.take st.cursor ++ normalizeText nl rawR ++ st.content.drop st.cursor,
         st.cursor + (normalizeText nl rawR).length,
         some (st.cursor, st.cursor + (normalizeText nl rawR).length)⟩ := by
  constructor
  · rw [procChild_find, normalizeText_nil, strFind_empty_of_le h]
    simp
  · rw [procChild_replace]

/-- Witness for C10 at a concrete input: an empty `find` in "abc"
with the cursor at 1, followed by a `replace` with "XY". -/
theorem claim_C10_witness :
    procChild lf ⟨"abc".data, 1, none⟩ ⟨"find", [], none⟩
        = ⟨"abc".data, 1, some (1, 1)⟩
    ∧ procChild lf ⟨"abc".data, 1, some (1, 1)⟩ ⟨"replace", "XY".data, none⟩
        = ⟨"abc".data.take 1 ++ normalizeText lf "XY".data ++ "abc".data.drop 1,
           1 + (normalizeText lf "XY".data).length,
           some (1, 1 + (normalizeText lf "XY".data).length)⟩ :=
  claim_C10 lf ⟨"abc".data, 1, none⟩ none none "XY".data (by decide)

/-! ## Claims about the working file table -/

theorem tblMem_of_get {t : Table} {k : String} {bytes : List Nat}
    (h : tblGet t k = some bytes) : tblMem t k = true := by
  unfold tblMem
  rw [h]
  rfl

theorem loadBaseFile_of_mem {base t : Table} {p : String}
    (h : tblMem t p = true) : loadBaseFile base p t = t := by
  unfold loadBaseFile
  rw [h]
  rfl

theorem processEditBlock_some (base t : Table) (X : String) (ds : List XmlChild) :
    processEditBlock base t ⟨some X, ds⟩ =
      if X = "" then t
      else
        match tblGet (if tblMem t X then t else loadBaseFile base X t) X with
        | none => if tblMem t X then t else loadBaseFile base X t
        | some [] => if tblMem t X then t else loadBaseFile base X t
        | some bytes =>
            tblSet (if tblMem t X then t else loadBaseFile base X t) X
              (utf8Encode (applyEditBlockText (decodeContent bytes) ds)) := rfl

theorem processEditBlock_mem {base t : Table} {X : String} (ds : List XmlChild)
    (hX : X ≠ "") (hmem : tblMem t X = true) :
    processEditBlock base t ⟨some X, ds⟩ =
      match tblGet t X with
      | none => t
      | some [] => t
      | some bytes =>
          tblSet t X (utf8Encode (applyEditBlockText (decodeContent bytes) ds)) := by
  rw [processEditBlock_some, if_neg hX, hmem]
  simp

/-- C7: once a path is present in the working file table, the base
archive is no longer consulted for it: re-loading it from the base
archive is the identity, an `editfile` block on it yields the same
table whatever the base archive holds (and, for non-empty content,
equals the interpretation of the accumulated content at that path),
and a later mod's `find` from the block-entry state succeeds on any
text occurring in that accumulated content — in particular on text a
previous mod's `replace` introduced. -/
theorem claim_C7 (base baseAlt t : Table) (X : String) (bytes : List Nat)
    (ds : List XmlChild) (hget : tblGet t X = some bytes) :
    loadBaseFile base X t = t
    ∧ processEditBlock base t ⟨some X, ds⟩ = processEditBlock baseAlt t ⟨some X, ds⟩
    ∧ (X ≠ "" → bytes ≠ [] →
        processEditBlock base t ⟨some X, ds⟩
          = tblSet t X (utf8Encode (applyEditBlockText (decodeContent bytes) ds)))
    ∧ (∀ (rawB : List Char) (pos : Option String),
        (∃ i, occursAt (decodeContent bytes)
            (normalizeText (detectNewline (decodeContent bytes)) rawB) i = true) →
        ∃ j, occursAt (decodeContent bytes)
            (normalizeText (detectNewline (decodeContent bytes)) rawB) j = true
          ∧ procChild (detectNewline (decodeContent bytes))
              ⟨decodeContent bytes, 0, none⟩ ⟨"find", rawB, pos⟩
            = ⟨decodeContent bytes,
               j + (normalizeText (detectNewline (decodeContent bytes)) rawB).length,
               some (j, j + (normalizeText (detectNewline (decodeContent bytes)) rawB).length)⟩) := by
  have hmem : tblMem t X = true := tblMem_of_get hget
  refine ⟨loadBaseFile_of_mem hmem, ?_, ?_, ?_⟩
  · rw [processEditBlock_some, processEditBlock_some]
    by_cases hX : X = ""
    · rw [if_pos hX, if_pos hX]
    · rw [if_neg hX, if_neg hX, hmem]
      simp
  · intro hX hbytes
    rw [processEditBlock_mem ds hX hmem, hget]
    cases bytes with
    | nil => exact absurd rfl hbytes
    | cons b bs => rfl
  · intro rawB pos hex
    obtain ⟨i, hi⟩ := hex
    cases hsf : strFind (decodeContent bytes)
        (normalizeText (detectNewline (decodeContent bytes)) rawB) 0 with
    | none =>
      have := (strFind_eq_none_iff _ _ 0).mp hsf i (Nat.zero_le i)
      rw [hi] at this
      cases this
    | some j =>
      obtain ⟨_, hocc, _⟩ := strFind_eq_some hsf
      refine ⟨j, hocc, ?_⟩
      rw [procChild_find]
      simp only [hsf]

/-- Witness for C7 at a concrete input: the table already holds "X"
with content "abc"; the base archive (holding different content for
"X") is irrelevant, and a `find` for "bc" succeeds. -/
theorem claim_C7_witness :
    loadBaseFile [("X", [1])] "X" [("X", [97, 98, 99])] = [("X", [97, 98, 99])]
    ∧ (∃ j, occursAt (decodeContent [97, 98, 99])
          (normalizeText (detectNewline (decodeContent [97, 98, 99])) "bc".data) j = true
        ∧ procChild (detectNewline (decodeContent [97, 98, 99]))
            ⟨decodeContent [97, 98, 99], 0, none⟩ ⟨"find", "bc".data, none⟩
          = ⟨decodeContent [97, 98, 99],
             j + (normalizeText (detectNewline (decodeContent [97, 98, 99])) "bc".data).length,
             some (j, j + (normalizeText (detectNewline
               (decodeContent [97, 98, 99])) "bc".data).length)⟩) :=
  ⟨(claim_C7 [("X", [1])] [] [("X", [97, 98, 99])] "X" [97, 98, 99] [] rfl).1,
   (claim_C7 [("X", [1])] [] [("X", [97, 98, 99])] "X" [97, 98, 99] [] rfl).2.2.2
     "bc".data none ⟨1, by decide⟩⟩

/-- C8 counterexample: the target path "X" is present in the working
file table with zero-length content, yet the edit block is skipped
(the table is returned unchanged), whereas running the interpreter
and storing its result, as the claim requires, would have changed the
table. -/
theorem claim_C8_counterexample :
    tblMem [("X", ([] : List Nat))] "X" = true
    ∧ processEditBlock [] [("X", [])]
        ⟨some "X", [⟨"find", [], none⟩, ⟨"replace", "hi".data, none⟩]⟩
      = [("X", [])]
    ∧ tblSet [("X", ([] : List Nat))] "X"
        (utf8Encode (applyEditBlockText (decodeContent [])
          [⟨"find", [], none⟩, ⟨"replace", "hi".data, none⟩]))
      ≠ [("X", [])] :=
  ⟨by decide, by decide, by decide⟩

/-- C8 as amended: an `editfile` block with a non-empty target name is
skipped (after the lazy load from the base archive) exactly when the
target's content is absent from both the table and the base archive or
is a zero-length file; when the (possibly lazily loaded) content is
non-empty the interpreter runs and its result is stored back at the
target path; and a block never prevents the following blocks of the
same manifest from executing. -/
theorem claim_C8_amended (base t : Table) (X : String) (ds : List XmlChild)
    (hX : X ≠ "") :
    ((tblGet (if tblMem t X then t else loadBaseFile base X t) X = none
        ∨ tblGet (if tblMem t X then t else loadBaseFile base X t) X = some []) →
      processEditBlock base t ⟨some X, ds⟩
        = (if tblMem t X then t else loadBaseFile base X t))
    ∧ (∀ bytes, tblGet (if tblMem t X then t else loadBaseFile base X t) X = some bytes →
        bytes ≠ [] →
        processEditBlock base t ⟨some X, ds⟩
          = tblSet (if tblMem t X then t else loadBaseFile base X t) X
              (utf8Encode (applyEditBlockText (decodeContent bytes) ds)))
    ∧ (∀ (blk : EditBlock) (blocks : List EditBlock),
        (blk :: blocks).foldl (processEditBlock base) t
          = blocks.foldl (processEditBlock base) (processEditBlock base t blk)) := by
  refine ⟨?_, ?_, ?_⟩
  · intro h
    rw [processEditBlock_some, if_neg hX]
    rcases h with h | h
    · rw [h]
    · rw [h]
  · intro bytes hget hbytes
    rw [processEditBlock_some, if_neg hX, hget]
    cases bytes with
    | nil => exact absurd rfl hbytes
    | cons b bs => rfl
  · intro blk blocks
    rfl

/-- Witness for C8 as amended at a concrete input: target "Y" absent
from the table is lazily loaded from the base archive and its
non-empty content "a" is edited (an empty `find` then a `replace`
storing "zb"). -/
theorem claim_C8_amended_witness :
    processEditBlock [("Y", [97])] []
        ⟨some "Y", [⟨"find", [], none⟩, ⟨"replace", "zb".data, none⟩]⟩
      = tblSet (if tblMem [] "Y" then [] else loadBaseFile [("Y", [97])] "Y" []) "Y"
          (utf8Encode (applyEditBlockText (decodeContent [97])
            [⟨"find", [], none⟩, ⟨"replace", "zb".data, none⟩])) :=
  (claim_C8_amended [("Y", [97])] [] "Y"
      [⟨"find", [], none⟩, ⟨"replace", "zb".data, none⟩]
      (by decide)).2.1 [97] (by decide) (by decide)

/-! ## Key tracking through the table operations -/

theorem tblKeys_cons (e : String × List Nat) (t : Table) :
    tblKeys (e :: t) = e.1 :: tblKeys t := rfl

theorem mem_tblKeys_tblSet : ∀ (t : Table) (k : String) (v : List Nat) (x : String),
    x ∈ tblKeys (tblSet t k v) → x = k ∨ x ∈ tblKeys t := by
  intro t
  induction t with
  | nil =>
    intro k v x h
    simp [tblSet, tblKeys] at h
    exact Or.inl h
  | cons e rest ih =>
    intro k v x h
    obtain ⟨k', v'⟩ := e
    unfold tblSet at h
    by_cases hk : k' = k
    · rw [if_pos hk] at h
      rw [tblKeys_cons, List.mem_cons] at h
      rw [tblKeys_cons, List.mem_cons]
      rcases h with rfl | hx
      · exact Or.inl rfl
      · exact Or.inr (Or.inr hx)
    · rw [if_neg hk] at h
      rw [tblKeys_cons, List.mem_cons] at h
      rw [tblKeys_cons, List.mem_cons]
      rcases h with rfl | hx
      · exact Or.inr (Or.inl rfl)
      · rcases ih k v x hx with h1 | h1
        · exact Or.inl h1
        · exact Or.inr (Or.inr h1)

theorem mem_tblKeys_loadBaseFile {base t : Table} {p x : String}
    (h : x ∈ tblKeys (loadBaseFile base p t)) : x = p ∨ x ∈ tblKeys t := by
  unfold loadBaseFile at h
  by_cases hm : tblMem t p = true
  · rw [if_pos hm] at h
    exact Or.inr h
  · rw [if_neg hm] at h
    cases hg : tblGet base p with
    | none =>
      rw [hg] at h
      exact Or.inr h
    | some c =>
      rw [hg] at h
      exact mem_tblKeys_tblSet t p c x h

theorem mem_tblKeys_processEditBlock {base t : Table} {blk : EditBlock} {x : String}
    (h : x ∈ tblKeys (processEditBlock base t blk)) :
    blk.name = some x ∨ x ∈ tblKeys t := by
  obtain ⟨nm, ds⟩ := blk
  cases nm with
  | none => exact Or.inr h
  | some X =>
    rw [processEditBlock_some] at h
    by_cases hX : X = ""
    · rw [if_pos hX] at h
      exact Or.inr h
    · rw [if_neg hX] at h
      have ht1k : ∀ y, y ∈ tblKeys (if tblMem t X then t else loadBaseFile base X t) →
          y = X ∨ y ∈ tblKeys t := by
        intro y hy
        by_cases hm : tblMem t X = true
        · rw [if_pos hm] at hy
          exact Or.inr hy
        · rw [if_neg hm] at hy
          exact mem_tblKeys_loadBaseFile hy
      cases hg : tblGet (if tblMem t X then t else loadBaseFile base X t) X with
      | none =>
        rw [hg] at h
        rcases ht1k x h with rfl | hx
        · exact Or.inl rfl
        · exact Or.inr hx
      | some bytes =>
        rw [hg] at h
        cases bytes with
        | nil =>
          rcases ht1k x h with rfl | hx
          · exact Or.inl rfl
          · exact Or.inr hx
        | cons b bs =>
          rcases mem_tblKeys_tblSet _ X _ x h with rfl | hx
          · exact Or.inl rfl
          · rcases ht1k x hx with rfl | hx2
            · exact Or.inl rfl
            · exact Or.inr hx2

theorem mem_tblKeys_foldBlocks {base : Table} :
    ∀ (blocks : List EditBlock) (t : Table) (x : String),
    x ∈ tblKeys (blocks.foldl (processEditBlock base) t) →
    (∃ blk ∈ blocks, blk.name = some x) ∨ x ∈ tblKeys t := by
  intro blocks
  induction blocks with
  | nil =>
    intro t x h
    exact Or.inr h
  | cons blk rest ih =>
    intro t x h
    rcases ih (processEditBlock base t blk) x h with h1 | h1
    · obtain ⟨b, hb1, hb2⟩ := h1
      exact Or.inl ⟨b, List.mem_cons_of_mem _ hb1, hb2⟩
    · rcases mem_tblKeys_processEditBlock h1 with h2 | h2
      · exact Or.inl ⟨blk, List.mem_cons_self _ _, h2⟩
      · exact Or.inr h2

theorem mem_tblKeys_injectAssets {pkg : ModPackage} :
    ∀ (t : Table) (x : String), x ∈ tblKeys (injectAssets pkg t) →
    x ∈ pkg.files.map (fun e => cleanName e.1) ∨ x ∈ tblKeys t := by
  obtain ⟨files, mx⟩ := pkg
  show ∀ t x, x ∈ tblKeys (files.foldl _ t) → _
  induction files with
  | nil =>
    intro t x h
    exact Or.inr h
  | cons e rest ih =>
    intro t x h
    rcases ih _ x h with h1 | h1
    · exact Or.inl (List.mem_cons_of_mem _ h1)
    · simp only [] at h1
      by_cases hc : (e.2.1 || ignoredFiles.contains (lowerString (cleanName e.1))) = true
      · rw [if_pos hc] at h1
        exact Or.inr h1
      · rw [if_neg hc] at h1
        rcases mem_tblKeys_tblSet _ _ _ x h1 with rfl | hx
        · exact Or.inl (List.mem_cons_self _ _)
        · exact Or.inr hx

theorem mem_tblKeys_processMod {base : Table} {pkg : ModPackage} {t : Table} {x : String}
    (h : x ∈ tblKeys (processMod base pkg t)) :
    x ∈ pkgTouchedPaths pkg ∨ x ∈ tblKeys t := by
  unfold processMod at h
  unfold pkgTouchedPaths
  cases hmx : pkg.modXml with
  | none =>
    rw [hmx] at h
    rcases mem_tblKeys_injectAssets _ x h with h1 | h1
    · exact Or.inl (List.mem_append_left _ h1)
    · exact Or.inr h1
  | some blocks =>
    rw [hmx] at h
    rcases mem_tblKeys_foldBlocks blocks _ x h with h1 | h1
    · obtain ⟨blk, hb1, hb2⟩ := h1
      refine Or.inl (List.mem_append_right _ ?_)
      exact List.mem_filterMap.mpr ⟨blk, hb1, hb2⟩
    · rcases mem_tblKeys_injectAssets _ x h1 with h2 | h2
      · exact Or.inl (List.mem_append_left _ h2)
      · exact Or.inr h2

theorem mem_tblKeys_foldMods {base : Table} :
    ∀ (ms : List ModEntry) (t : Table) (x : String),
    x ∈ tblKeys (ms.foldl (fun t m => processMod base m.pkg t) t) →
    (∃ m ∈ ms, x ∈ pkgTouchedPaths m.pkg) ∨ x ∈ tblKeys t := by
  intro ms
  induction ms with
  | nil =>
    intro t x h
    exact Or.inr h
  | cons m rest ih =>
    intro t x h
    rcases ih _ x h with h1 | h1
    · obtain ⟨m', hm1, hm2⟩ := h1
      exact Or.inl ⟨m', List.mem_cons_of_mem _ hm1, hm2⟩
    · rcases mem_tblKeys_processMod h1 with h2 | h2
      · exact Or.inl ⟨m, List.mem_cons_self _ _, h2⟩
      · exact Or.inr h2

/-! ## Claims about the orchestrator -/

theorem applyMods_success (mods : List ModEntry) (fs : FS) (base : Table)
    (hmods : (mods.filter (·.enabled)).isEmpty = false)
    (hbase : fs.base = some base) :
    applyMods mods fs noFaults
      = ((true, "Successfully applied " ++ toString (mods.filter (·.enabled)).length
            ++ " mods to resources0.jz"),
         { fs with temp := none,
                   final := some ((mods.filter (·.enabled)).foldl
                     (fun t m => processMod base m.pkg t) []) }) := by
  obtain ⟨ob, ot, of⟩ := fs
  cases hbase
  cases of with
  | none => simp [applyMods, hmods, noFaults]
  | some prev => simp [applyMods, hmods, noFaults]

/-- C1 counterexample: with one enabled mod, a base archive present
and a previous final output on disk, a fault injected into the rename
step yields a run that returns failure carrying the error and deletes
the temporary artifact, but the previous final output archive has been
deleted rather than left as it was before the run. -/
theorem claim_C1_counterexample :
    (applyMods [⟨"m", true, ⟨[], none⟩⟩]
        ⟨some [("x", [65])], none, some [("old", [1])]⟩ ⟨none, none, some "boom"⟩)
      = ((false, "boom"), ⟨some [("x", [65])], none, none⟩)
    ∧ (⟨some [("x", [65])], none, none⟩ : FS).final
        ≠ (⟨some [("x", [65])], none, some [("old", [1])]⟩ : FS).final :=
  ⟨by decide, by decide⟩

/-- C1 as amended: with a non-empty enabled-mod list and the base
archive present, an exception while writing the temporary archive, or
while deleting the previous final output, returns failure carrying
that error, deletes the temporary artifact and leaves the previous
final output exactly as it was; but an exception raised by the rename
(which runs after the delete) returns failure carrying the error and
deletes the temporary artifact while the final path is left holding no
archive at all — the delete-then-rename commit is not atomic. -/
theorem claim_C1_amended (mods : List ModEntry) (fs : FS) (f : Faults) (e : String)
    (hmods : (mods.filter (·.enabled)).isEmpty = false)
    (hbase : fs.base.isSome = true) :
    (f.writeTemp = some e →
      applyMods mods fs f = ((false, e), { fs with temp := none }))
    ∧ (f.writeTemp = none → f.removeFinal = some e → fs.final.isSome = true →
      applyMods mods fs f = ((false, e), { fs with temp := none }))
    ∧ (f.writeTemp = none → f.renameTemp = some e →
        (fs.final.isSome = true → f.removeFinal = none) →
      applyMods mods fs f = ((false, e), { fs with temp := none, final := none })) := by
  obtain ⟨ob, ot, of⟩ := fs
  obtain ⟨base, rfl⟩ : ∃ b, ob = some b := by
    cases ob with
    | none => simp at hbase
    | some b => exact ⟨b, rfl⟩
  refine ⟨?_, ?_, ?_⟩
  · intro hw
    simp [applyMods, applyModsHandler, hmods, hw]
  · intro hw hr hf
    obtain ⟨prev, rfl⟩ : ∃ p, of = some p := by
      cases of with
      | none => simp at hf
      | some p => exact ⟨p, rfl⟩
    simp [applyMods, applyModsHandler, hmods, hw, hr]
  · intro hw hrn hcond
    cases of with
    | none => simp [applyMods, applyModsHandler, hmods, hw, hrn]
    | some prev =>
      have hrf : f.removeFinal = none := hcond (by simp)
      simp [applyMods, applyModsHandler, hmods, hw, hrn, hrf]

/-- Witness for C1 as amended at a concrete input: a fault in the
temporary write fails the run with that error and leaves the previous
final output untouched. -/
theorem claim_C1_amended_witness :
    applyMods [⟨"m", true, ⟨[], none⟩⟩] ⟨some [], none, some [("old", [1])]⟩
        ⟨some "disk full", none, none⟩
      = ((false, "disk full"), ⟨some [], none, some [("old", [1])]⟩) :=
  (claim_C1_amended [⟨"m", true, ⟨[], none⟩⟩] ⟨some [], none, some [("old", [1])]⟩
      ⟨some "disk full", none, none⟩ "disk full" (by decide) (by decide)).1 rfl

/-- C2 counterexample: a successful run whose base archive holds
"a.txt" and whose only enabled mod injects "b.txt" produces a derived
archive containing only "b.txt" — the base entry "a.txt" is not
reproduced, so the output is not a full copy of the base archive. -/
theorem claim_C2_counterexample :
    (applyMods [⟨"m", true, ⟨[("b.txt", false, [66])], none⟩⟩]
        ⟨some [("a.txt", [65])], none, none⟩ noFaults).1.1 = true
    ∧ (applyMods [⟨"m", true, ⟨[("b.txt", false, [66])], none⟩⟩]
        ⟨some [("a.txt", [65])], none, none⟩ noFaults).2.final
      = some [("b.txt", [66])]
    ∧ tblGet [("a.txt", [65])] "a.txt" = some [65]
    ∧ tblGet [("b.txt", ([66] : List Nat))] "a.txt" = none :=
  ⟨by decide, by decide, by decide, by decide⟩

/-- C2 as amended: for every successful fault-free run with a
non-empty enabled-mod list, the derived archive is exactly the
accumulated working file table, and every path in it was touched by
some enabled mod (injected as an asset or named by an `editfile`
block); the output is an overlay/delta, not a full reproduction of the
base archive, whose untouched entries are absent. -/
theorem claim_C2_amended (mods : List ModEntry) (fs : FS) (base : Table)
    (hmods : (mods.filter (·.enabled)).isEmpty = false)
    (hbase : fs.base = some base) :
    (applyMods mods fs noFaults).1.1 = true
    ∧ (applyMods mods fs noFaults).2.final
        = some ((mods.filter (·.enabled)).foldl (fun t m => processMod base m.pkg t) [])
    ∧ ∀ x ∈ tblKeys ((mods.filter (·.enabled)).foldl
          (fun t m => processMod base m.pkg t) []),
        ∃ m, m ∈ mods.filter (·.enabled) ∧ x ∈ pkgTouchedPaths m.pkg := by
  rw [applyMods_success mods fs base hmods hbase]
  refine ⟨rfl, rfl, ?_⟩
  intro x hx
  rcases mem_tblKeys_foldMods _ _ x hx with h1 | h1
  · obtain ⟨m, hm1, hm2⟩ := h1
    exact ⟨m, hm1, hm2⟩
  · simp [tblKeys] at h1

/-- Witness for C2 as amended at a concrete input: one enabled mod
injecting "b.txt" over a base archive holding "a.txt". -/
theorem claim_C2_amended_witness :
    (applyMods [⟨"m", true, ⟨[("b.txt", false, [66])], none⟩⟩]
        ⟨some [("a.txt", [65])], none, none⟩ noFaults).1.1 = true
    ∧ (applyMods [⟨"m", true, ⟨[("b.txt", false, [66])], none⟩⟩]
        ⟨some [("a.txt", [65])], none, none⟩ noFaults).2.final
      = some (([⟨"m", true, ⟨[("b.txt", false, [66])], none⟩⟩].filter
          (ModEntry.enabled ·)).foldl
            (fun t m => processMod [("a.txt", [65])] m.pkg t) [])
    ∧ ∀ x ∈ tblKeys (([⟨"m", true, ⟨[("b.txt", false, [66])], none⟩⟩].filter
          (ModEntry.enabled ·)).foldl
            (fun t m => processMod [("a.txt", [65])] m.pkg t) []),
        ∃ m, m ∈ [⟨"m", true, ⟨[("b.txt", false, [66])], none⟩⟩].filter
            (ModEntry.enabled ·)
          ∧ x ∈ pkgTouchedPaths m.pkg :=
  claim_C2_amended [⟨"m", true, ⟨[("b.txt", false, [66])], none⟩⟩]
    ⟨some [("a.txt", [65])], none, none⟩ [("a.txt", [65])] (by decide) rfl

/-- C9: with the base archive and the mod packages unchanged, running
a fault-free apply twice in succession is idempotent — both runs
succeed and the second derived archive's content mapping is identical
to the first's, each run rebuilding the working file table from the
empty table over the base archive. -/
theorem claim_C9 (mods : List ModEntry) (fs : FS) (base : Table)
    (hmods : (mods.filter (·.enabled)).isEmpty = false)
    (hbase : fs.base = some base) :
    (applyMods mods fs noFaults).1.1 = true
    ∧ (applyMods mods (applyMods mods fs noFaults).2 noFaults).1.1 = true
    ∧ (applyMods mods (applyMods mods fs noFaults).2 noFaults).2.final
        = (applyMods mods fs noFaults).2.final
    ∧ (applyMods mods fs noFaults).2.final
        = some ((mods.filter (·.enabled)).foldl
            (fun t m => processMod base m.pkg t) []) := by
  have h1 := applyMods_success mods fs base hmods hbase
  rw [h1]
  have h2 := applyMods_success mods
    { fs with temp := none,
              final := some ((mods.filter (·.enabled)).foldl
                (fun t m => processMod base m.pkg t) []) } base hmods hbase
  rw [h2]
  exact ⟨rfl, rfl, rfl, rfl⟩

/-- Witness for C9 at a concrete input: applying one asset-injecting
mod twice over the same base archive. -/
theorem claim_C9_witness :
    (applyMods [⟨"m", true, ⟨[("b.txt", false, [66])], none⟩⟩]
        ⟨some [("a.txt", [65])], none, none⟩ noFaults).1.1 = true
    ∧ (applyMods [⟨"m", true, ⟨[("b.txt", false, [66])], none⟩⟩]
        (applyMods [⟨"m", true, ⟨[("b.txt", false, [66])], none⟩⟩]
          ⟨some [("a.txt", [65])], none, none⟩ noFaults).2 noFaults).1.1 = true
    ∧ (applyMods [⟨"m", true, ⟨[("b.txt", false, [66])], none⟩⟩]
        (applyMods [⟨"m", true, ⟨[("b.txt", false, [66])], none⟩⟩]
          ⟨some [("a.txt", [65])], none, none⟩ noFaults).2 noFaults).2.final
      = (applyMods [⟨"m", true, ⟨[("b.txt", false, [66])], none⟩⟩]
          ⟨some [("a.txt", [65])], none, none⟩ noFaults).2.final
    ∧ (applyMods [⟨"m", true, ⟨[("b.txt", false, [66])], none⟩⟩]
        ⟨some [("a.txt", [65])], none, none⟩ noFaults).2.final
      = some (([⟨"m", true, ⟨[("b.txt", false, [66])], none⟩⟩].filter
          (ModEntry.enabled ·)).foldl
            (fun t m => processMod [("a.txt", [65])] m.pkg t) []) :=
  claim_C9 [⟨"m", true, ⟨[("b.txt", false, [66])], none⟩⟩]
    ⟨some [("a.txt", [65])], none, none⟩ [("a.txt", [65])] (by decide) rfl

end ModApplicator
